import Mathlib

/-!
Verification development for the libnop serialization library core.

This file gives a shallow embedding of:
  - the BoundedReader byte-budget wrapper
    (src/include/nop/types/variant.h, second unit: BoundedReader);
  - the LogicalBuffer codec, both the non-integral (ARRAY) and the
    integral (BINARY) variants (src/include/nop/base/logical_buffer.h);
  - the Variant tagged union and the IfAnyOf combinator
    (src/include/nop/types/variant.h, first unit).

Machine integers are modelled as Nat (the C++ code only ever subtracts
smaller from larger under the maintained invariants, so truncated Nat
subtraction agrees with size_t arithmetic on all reachable states).
Fallible operations return an explicit Option ErrorStatus alongside the
updated state.
-/

/-- Error kinds of the Status taxonomy (spec section 7) that the embedded
operations can produce.  ErrorStatus(ENOBUFS) is NoBuffer. -/
inductive ErrorStatus where
  | NoBuffer
  | IoError
  | InvalidContainerLength
  | UnexpectedEncodingType
  deriving DecidableEq, Repr

/-!
## Inner Reader model

Modelled from the spec: the Reader pull interface of spec section 3
(nop/base/encoding.h and concrete readers are not under src/).  A reader
produces bytes in order; Ensure asserts availability without consuming,
Read consumes one byte, ReadRaw consumes an exact range, Skip discards.
Failure at end-of-stream surfaces as IoError.  Only the position is
relevant to the claims, so the reader state is a cursor over a stream of
known length.
-/

/-- Modelled from the spec: inner reader state, a position over a byte
stream of total length len. -/
structure InnerReader where
  pos : Nat
  len : Nat
  deriving DecidableEq, Repr

/-- Modelled from the spec: Ensure(n) asserts n bytes are available
without consuming them. -/
def InnerReader.ensure (r : InnerReader) (n : Nat) :
    Option ErrorStatus × InnerReader :=
  if r.pos + n ≤ r.len then (none, r) else (some .IoError, r)

/-- Modelled from the spec: Read consumes one byte. -/
def InnerReader.readByte (r : InnerReader) : Option ErrorStatus × InnerReader :=
  if r.pos + 1 ≤ r.len then (none, ⟨r.pos + 1, r.len⟩) else (some .IoError, r)

/-- Modelled from the spec: ReadRaw(begin, end) consumes an exact range of
m bytes. -/
def InnerReader.readRaw (r : InnerReader) (m : Nat) :
    Option ErrorStatus × InnerReader :=
  if r.pos + m ≤ r.len then (none, ⟨r.pos + m, r.len⟩) else (some .IoError, r)

/-- Modelled from the spec: Skip(n) consumes and discards n bytes. -/
def InnerReader.skip (r : InnerReader) (m : Nat) :
    Option ErrorStatus × InnerReader :=
  if r.pos + m ≤ r.len then (none, ⟨r.pos + m, r.len⟩) else (some .IoError, r)

/-!
## BoundedReader

Direct embedding of the BoundedReader class template
(src/include/nop/types/variant.h, lines 362-446 of the concatenated
file).  Field names follow the source: reader_, size_ (the capacity set
at construction), index_ (bytes consumed so far).
-/

/-- BoundedReader state: wrapped reader, byte budget size_ (capacity) and
running count index_. -/
structure BoundedReader where
  reader : InnerReader
  size_ : Nat
  index_ : Nat
  deriving DecidableEq, Repr

/-- BoundedReader::Ensure: fails with NoBuffer when size_ - index_ < size,
otherwise delegates to the inner reader. -/
def BoundedReader.ensure (s : BoundedReader) (n : Nat) :
    Option ErrorStatus × BoundedReader :=
  if s.size_ - s.index_ < n then (some .NoBuffer, s)
  else
    match s.reader.ensure n with
    | (st, r) => (st, { s with reader := r })

/-- BoundedReader::Read: reads one prefix byte when index_ < size_,
incrementing index_ on success; otherwise fails with NoBuffer. -/
def BoundedReader.read (s : BoundedReader) : Option ErrorStatus × BoundedReader :=
  if s.index_ < s.size_ then
    match s.reader.readByte with
    | (none, r) => (none, { s with reader := r, index_ := s.index_ + 1 })
    | (some e, r) => (some e, { s with reader := r })
  else
    (some .NoBuffer, s)

/-- BoundedReader::ReadRaw: fails with NoBuffer when the requested byte
count exceeds size_ - index_, otherwise delegates and advances index_. -/
def BoundedReader.readRaw (s : BoundedReader) (m : Nat) :
    Option ErrorStatus × BoundedReader :=
  if m > s.size_ - s.index_ then (some .NoBuffer, s)
  else
    match s.reader.readRaw m with
    | (none, r) => (none, { s with reader := r, index_ := s.index_ + m })
    | (some e, r) => (some e, { s with reader := r })

/-- BoundedReader::Skip: same budget discipline as ReadRaw. -/
def BoundedReader.skipBytes (s : BoundedReader) (m : Nat) :
    Option ErrorStatus × BoundedReader :=
  if m > s.size_ - s.index_ then (some .NoBuffer, s)
  else
    match s.reader.skip m with
    | (none, r) => (none, { s with reader := r, index_ := s.index_ + m })
    | (some e, r) => (some e, { s with reader := r })

/-- BoundedReader::ReadPadding: skips the remaining size_ - index_ bytes on
the inner reader; on inner failure the status is returned with index_
unchanged. -/
def BoundedReader.readPadding (s : BoundedReader) :
    Option ErrorStatus × BoundedReader :=
  let padding_bytes := s.size_ - s.index_
  match s.reader.skip padding_bytes with
  | (none, r) => (none, { s with reader := r, index_ := s.index_ + padding_bytes })
  | (some e, r) => (some e, { s with reader := r })

/-- A consuming BoundedReader operation, for reasoning about sequences. -/
inductive ROp where
  | ensure (n : Nat)
  | read
  | readRaw (m : Nat)
  | skip (m : Nat)
  deriving DecidableEq, Repr

/-- The byte count an operation requests against the budget: Ensure(n)
requests n, Read requests 1, ReadRaw and Skip request their byte count. -/
def ROp.requested : ROp → Nat
  | .ensure n => n
  | .read => 1
  | .readRaw m => m
  | .skip m => m

/-- One step of a BoundedReader operation. -/
def rstep : ROp → BoundedReader → Option ErrorStatus × BoundedReader
  | .ensure n, s => s.ensure n
  | .read, s => s.read
  | .readRaw m, s => s.readRaw m
  | .skip m, s => s.skipBytes m

/-- Runs a sequence of operations, stopping at the first failure; returns
the state reached together with the error, if any. -/
def runOps : List ROp → BoundedReader → BoundedReader × Option ErrorStatus
  | [], s => (s, none)
  | op :: rest, s =>
    match rstep op s with
    | (none, s1) => runOps rest s1
    | (some e, s1) => (s1, some e)

/-!
## Compact unsigned integer codec (u64)

Modelled from the spec: the integer size-class codec of spec sections
4.C, 4.D and 6 (nop/base/encoding.h is not under src/).  A writer emits
the most compact class whose range contains the value: a positive fixint
in a single byte for values up to 127, else a U8/U16/U32/U64 frame of a
class byte followed by a little-endian payload.  A reader accepts any of
those classes.  Concrete class-byte assignments are implementation
defined per spec section 6; the MessagePack-compatible values are used.
-/

def tagU8 : Nat := 0xCC
def tagU16 : Nat := 0xCD
def tagU32 : Nat := 0xCE
def tagU64 : Nat := 0xCF
/-- EncodingByte::Binary, the class byte of BINARY frames. -/
def tagBinary : Nat := 0xC4
/-- EncodingByte::Array, the class byte of ARRAY frames. -/
def tagArray : Nat := 0xDC

/-- Little-endian byte image of v in exactly k bytes (low byte first). -/
def leBytes : Nat → Nat → List Nat
  | 0, _ => []
  | k + 1, v => v % 256 :: leBytes k (v / 256)

/-- Value of a little-endian byte list (low byte first). -/
def leDecode : List Nat → Nat
  | [] => 0
  | b :: rest => b + 256 * leDecode rest

/-- Reads a k-byte little-endian payload from the front of the stream. -/
def readLE (k : Nat) (l : List Nat) : Except ErrorStatus (Nat × List Nat) :=
  if k ≤ l.length then .ok (leDecode (l.take k), l.drop k) else .error .IoError

/-- Modelled from the spec: Encoding of uint64, write side.  Emits the
most compact size class containing v. -/
def writeU64 (v : Nat) : List Nat :=
  if v ≤ 127 then [v]
  else if v < 2 ^ 8 then tagU8 :: leBytes 1 v
  else if v < 2 ^ 16 then tagU16 :: leBytes 2 v
  else if v < 2 ^ 32 then tagU32 :: leBytes 4 v
  else tagU64 :: leBytes 8 v

/-- Modelled from the spec: Encoding of uint64, Size.  One byte for a
positive fixint, otherwise one class byte plus the payload width. -/
def sizeU64 (v : Nat) : Nat :=
  if v ≤ 127 then 1
  else if v < 2 ^ 8 then 2
  else if v < 2 ^ 16 then 3
  else if v < 2 ^ 32 then 5
  else 9

/-- Modelled from the spec: Encoding of uint64, read side.  Accepts a
positive fixint or any unsigned size class; any other class byte is
UnexpectedEncodingType, a truncated stream is IoError. -/
def readU64 : List Nat → Except ErrorStatus (Nat × List Nat)
  | [] => .error .IoError
  | b :: rest =>
    if b ≤ 127 then .ok (b, rest)
    else if b = tagU8 then readLE 1 rest
    else if b = tagU16 then readLE 2 rest
    else if b = tagU32 then readLE 4 rest
    else if b = tagU64 then readLE 8 rest
    else .error .UnexpectedEncodingType

theorem leBytes_length (k v : Nat) : (leBytes k v).length = k := by
  induction k generalizing v with
  | zero => rfl
  | succ k ih => simp [leBytes, ih]

theorem leDecode_leBytes (k v : Nat) (h : v < 256 ^ k) :
    leDecode (leBytes k v) = v := by
  induction k generalizing v with
  | zero =>
    simp [leBytes, leDecode]
    omega
  | succ k ih =>
    have hdiv : v / 256 < 256 ^ k := by
      rw [Nat.div_lt_iff_lt_mul (by norm_num)]
      calc v < 256 ^ (k + 1) := h
        _ = 256 ^ k * 256 := by ring
    simp [leBytes, leDecode, ih (v / 256) hdiv]
    omega

theorem readLE_leBytes (k v : Nat) (rest : List Nat) (h : v < 256 ^ k) :
    readLE k (leBytes k v ++ rest) = .ok (v, rest) := by
  have hlen : (leBytes k v).length = k := leBytes_length k v
  simp [readLE, hlen, List.take_append_of_le_length, List.drop_append_of_le_length,
    leDecode_leBytes k v h]

theorem writeU64_length (v : Nat) : (writeU64 v).length = sizeU64 v := by
  unfold writeU64 sizeU64
  split
  · rfl
  · split
    · simp [leBytes_length]
    · split
      · simp [leBytes_length]
      · split
        · simp [leBytes_length]
        · simp [leBytes_length]

theorem readU64_writeU64 (v : Nat) (rest : List Nat) (h : v < 2 ^ 64) :
    readU64 (writeU64 v ++ rest) = .ok (v, rest) := by
  unfold writeU64
  split
  · next hfix =>
    simp [readU64, hfix]
  · next hfix =>
    split
    · next h8 =>
      have : ¬ tagU8 ≤ 127 := by norm_num [tagU8]
      simp [readU64, tagU8, readLE_leBytes 1 v rest (by simpa using h8)]
    · next h8 =>
      split
      · next h16 =>
        simp [readU64, tagU16, tagU8,
          readLE_leBytes 2 v rest (by norm_num at h16 ⊢; omega)]
      · next h16 =>
        split
        · next h32 =>
          simp [readU64, tagU32, tagU16, tagU8,
            readLE_leBytes 4 v rest (by norm_num at h32 ⊢; omega)]
        · next h32 =>
          simp [readU64, tagU64, tagU32, tagU16, tagU8,
            readLE_leBytes 8 v rest (by norm_num at h ⊢; omega)]

/-!
## LogicalBuffer

Embedding of src/include/nop/base/logical_buffer.h.  A LogicalBuffer is
a view over a fixed-capacity array together with a live element count;
the capacity is the array length (ArrayTraits::Length).  Modelled from
the spec: the view's begin()/end() iterators span the first count
elements, so only those are serialized (detail/logical_buffer.h is not
under src/).  The writer is modelled as an unbounded byte sink, so a
write op returns the status together with the bytes it emitted.
-/

/-- LogicalBuffer value: backing array (data, whose length is the
capacity) and live element count. -/
structure LogicalBuffer (α : Type) where
  data : List α
  count : Nat
  deriving DecidableEq, Repr

/-- Modelled from the spec: the Encoding capability of the element type,
restricted to the three operations the buffer codec invokes
(Size, Write, Read). -/
structure ElemCodec (α : Type) where
  size : α → Nat
  write : α → List Nat
  read : List Nat → Except ErrorStatus (α × List Nat)

/-- Writes xs over l starting at position i (the effect of the read
loops, which store element j into slot i + j). -/
def listOverwrite : List α → Nat → List α → List α
  | l, _, [] => l
  | l, i, x :: xs => listOverwrite (l.set i x) (i + 1) xs

/-!
### Non-integral (ARRAY) codec
Encoding of LogicalBuffer for non-integral elements,
src/include/nop/base/logical_buffer.h lines 86-153.
-/

/-- The element-size accumulation of the ARRAY Size: std::accumulate
with init 0U stores each partial sum into a 32-bit unsigned accumulator,
so every step is truncated mod 2^32. -/
def accumSize32 (E : ElemCodec α) : List α → Nat → Nat
  | [], acc => acc
  | x :: xs, acc => accumSize32 E xs ((acc + E.size x) % 2 ^ 32)

/-- Size of the ARRAY form: prefix byte, compact count, then the sizes of
the first count elements, accumulated by std::accumulate over
begin()..end() with a 32-bit accumulator (init 0U in the source). -/
def sizeA (E : ElemCodec α) (v : LogicalBuffer α) : Nat :=
  1 + sizeU64 v.count + accumSize32 E (v.data.take v.count) 0

/-- WritePayload of the ARRAY form: rejects count > capacity with
InvalidContainerLength before emitting anything, else emits the compact
count followed by each of the first count elements in order. -/
def writePayloadA (E : ElemCodec α) (v : LogicalBuffer α) :
    Option ErrorStatus × List Nat :=
  if v.count > v.data.length then (some .InvalidContainerLength, [])
  else (none, writeU64 v.count ++ (v.data.take v.count).flatMap E.write)

/-- Write of the ARRAY form (EncodingIO::Write): the Array prefix byte
followed by the payload. -/
def writeA (E : ElemCodec α) (v : LogicalBuffer α) :
    Option ErrorStatus × List Nat :=
  match writePayloadA E v with
  | (st, bs) => (st, tagArray :: bs)

/-- The element loop of ReadPayload (ARRAY): reads c elements into slots
i, i+1, ... of the destination, stopping at the first element error. -/
def readElemsA (E : ElemCodec α) :
    Nat → Nat → LogicalBuffer α → List Nat →
    Option ErrorStatus × LogicalBuffer α × List Nat
  | 0, _, v, input => (none, v, input)
  | c + 1, i, v, input =>
    match E.read input with
    | .error e => (some e, v, input)
    | .ok (x, rest) => readElemsA E c (i + 1) { v with data := v.data.set i x } rest

/-- ReadPayload of the ARRAY form: reads the compact count, rejects
count > capacity with InvalidContainerLength, reads that many elements
into the destination slots, and only then assigns the destination
count. -/
def readPayloadA (E : ElemCodec α) (v : LogicalBuffer α) (input : List Nat) :
    Option ErrorStatus × LogicalBuffer α × List Nat :=
  match readU64 input with
  | .error e => (some e, v, input)
  | .ok (size, rest) =>
    if size > v.data.length then (some .InvalidContainerLength, v, rest)
    else
      match readElemsA E size 0 v rest with
      | (some e, v1, rest1) => (some e, v1, rest1)
      | (none, v1, rest1) => (none, { v1 with count := size }, rest1)

/-!
### Integral (BINARY) codec
Encoding of LogicalBuffer for integral elements of width k bytes
(sizeof ValueType), src/include/nop/base/logical_buffer.h lines 155-212.
Element values are Nats below 2 ^ (8 * k); the raw Write/Read of the
element range moves each element as k little-endian bytes (spec: all
wire integers are little-endian).
-/

/-- Size of the BINARY form: prefix byte, compact byte length
(count * k), then the raw bytes themselves. -/
def sizeB (k : Nat) (v : LogicalBuffer Nat) : Nat :=
  1 + sizeU64 (v.count * k) + v.count * k

/-- WritePayload of the BINARY form: rejects count > capacity with
InvalidContainerLength before emitting anything, else emits the compact
byte length count * k followed by the first count elements as raw
little-endian bytes. -/
def writePayloadB (k : Nat) (v : LogicalBuffer Nat) :
    Option ErrorStatus × List Nat :=
  if v.count > v.data.length then (some .InvalidContainerLength, [])
  else (none, writeU64 (v.count * k) ++ (v.data.take v.count).flatMap (leBytes k))

/-- Write of the BINARY form (EncodingIO::Write): the Binary prefix byte
followed by the payload. -/
def writeB (k : Nat) (v : LogicalBuffer Nat) :
    Option ErrorStatus × List Nat :=
  match writePayloadB k v with
  | (st, bs) => (st, tagBinary :: bs)

/-- The raw element read of ReadPayload (BINARY): reads c elements of k
bytes each into slots i, i+1, ... of the destination. -/
def readRawElems (k : Nat) :
    Nat → Nat → LogicalBuffer Nat → List Nat →
    Option ErrorStatus × LogicalBuffer Nat × List Nat
  | 0, _, v, input => (none, v, input)
  | c + 1, i, v, input =>
    match readLE k input with
    | .error e => (some e, v, input)
    | .ok (x, rest) => readRawElems k c (i + 1) { v with data := v.data.set i x } rest

/-- ReadPayload of the BINARY form: reads the compact byte length,
rejects a length over capacity * k or not a multiple of k with
InvalidContainerLength, assigns the destination count (before the raw
read, as in the source), then raw-reads the elements. -/
def readPayloadB (k : Nat) (v : LogicalBuffer Nat) (input : List Nat) :
    Option ErrorStatus × LogicalBuffer Nat × List Nat :=
  match readU64 input with
  | .error e => (some e, v, input)
  | .ok (size_bytes, rest) =>
    if size_bytes > v.data.length * k ∨ size_bytes % k ≠ 0 then
      (some .InvalidContainerLength, v, rest)
    else
      readRawElems k (size_bytes / k) 0 { v with count := size_bytes / k } rest

/-!
## Variant

Embedding of the Variant class template
(src/include/nop/types/variant.h, first unit).  The element types are
erased: a Variant over n alternatives stores, per alternative, a Nat
payload.  The inner detail::Union (nop/types/detail/variant.h is not
under src/) is modelled from the spec and from its use sites: it owns
the raw storage (slots) and knows which slot, if any, currently holds a
live object (alive); Construct returns the constructed index, Assign
succeeds exactly when the passed index already names the target type,
Become constructs the target returning whether construction happened,
and Visit dispatches on the passed index, handing the EmptyVariant
sentinel to the operation for any index outside the alternatives.
-/

/-- Modelled from the spec: detail::Union storage over n alternatives.
slots is the raw storage of each alternative; alive is the alternative
whose object is currently constructed, if any. -/
structure UnionState (n : Nat) where
  slots : Fin n → Nat
  alive : Option (Fin n)

/-- Modelled from the spec: Union::Construct, builds alternative i from
the given value and returns its index. -/
def UnionState.construct (u : UnionState n) (i : Fin n) (x : Nat) :
    UnionState n × Int :=
  ({ slots := Function.update u.slots i x, alive := some i }, (i : Nat))

/-- Modelled from the spec: Union::Destruct(index), destroys the object
in the slot named by index when that slot holds the live object. -/
def UnionState.destruct (u : UnionState n) (index : Int) : UnionState n :=
  match u.alive with
  | some j => if ((j : Nat) : Int) = index then { u with alive := none } else u
  | none => u

/-- Modelled from the spec: Union::Assign(TypeTag of i, index, value),
assigns in place and reports true exactly when index names alternative
i; otherwise reports false leaving the union untouched. -/
def UnionState.assign (u : UnionState n) (i : Fin n) (index : Int) (x : Nat) :
    Bool × UnionState n :=
  if ((i : Nat) : Int) = index then
    (true, { slots := Function.update u.slots i x, alive := some i })
  else
    (false, u)

/-- Modelled from the spec: Union::Become(target, args), constructs the
target alternative when target is a valid index and construction
succeeds (ctorOk models whether the element constructor completes), and
reports whether it did.  A failed construction leaves no live object. -/
def UnionState.become (u : UnionState n) (target : Int) (x : Nat)
    (ctorOk : Bool) : Bool × UnionState n :=
  if h : 0 ≤ target ∧ target < (n : Int) then
    if ctorOk then
      (true, { slots := Function.update u.slots ⟨target.toNat, by omega⟩ x,
               alive := some ⟨target.toNat, by omega⟩ })
    else
      (false, u)
  else
    (false, u)

/-- Modelled from the spec: Union::Visit(index, op).  The result records
what the operation was invoked on: some (i, x) for the element of
alternative i holding x, none for the EmptyVariant sentinel. -/
def UnionState.visit (u : UnionState n) (index : Int) :
    Option (Fin n × Nat) :=
  if h : 0 ≤ index ∧ index < (n : Int) then
    some (⟨index.toNat, by omega⟩, u.slots ⟨index.toNat, by omega⟩)
  else
    none

/-- Variant state: the discriminating index_ (kEmptyIndex = -1 when
empty) and the union storage value_, as in the source. -/
structure Variant (n : Nat) where
  index_ : Int
  value_ : UnionState n

/-- Default construction yields an empty Variant: index_ = kEmptyIndex
and no live element (raw storage zero-initialised for determinism). -/
def Variant.default (n : Nat) : Variant n :=
  ⟨-1, ⟨fun _ => 0, none⟩⟩

/-- Variant::index(). -/
def Variant.index (v : Variant n) : Int := v.index_

/-- Variant::empty(). -/
def Variant.empty (v : Variant n) : Bool := v.index_ = -1

/-- Variant::Destruct: destroys the active element.  Faithful to the
source, which does not reset index_ here. -/
def Variant.Destruct (v : Variant n) : Variant n :=
  { v with value_ := v.value_.destruct v.index_ }

/-- Variant::Construct: constructs alternative i from the value and sets
index_ to the resulting type index. -/
def Variant.construct (v : Variant n) (i : Fin n) (x : Nat) : Variant n :=
  match v.value_.construct i x with
  | (u, idx) => ⟨idx, u⟩

/-- Variant::Assign(TypeTag, value) as reached from operator= with a
value of element type i: assign in place when the current type matches,
otherwise destroy the current value and construct the new element. -/
def Variant.assignTag (v : Variant n) (i : Fin n) (x : Nat) : Variant n :=
  match v.value_.assign i v.index_ x with
  | (true, u) => { v with value_ := u }
  | (false, _) => (v.Destruct).construct i x

/-- Variant::operator=(EmptyVariant), which calls Assign(EmptyVariant),
which only destructs. -/
def Variant.assignEmpty (v : Variant n) : Variant n := v.Destruct

/-- Variant::Become(target_index, args): no-op when target_index equals
index(); otherwise destroys the active element and sets index_ to
target_index when the union constructs the target, else to
kEmptyIndex. -/
def Variant.become (v : Variant n) (target : Int) (x : Nat)
    (ctorOk : Bool) : Variant n :=
  if target ≠ v.index_ then
    let v1 := v.Destruct
    match v1.value_.become target x ctorOk with
    | (ok, u) => ⟨if ok then target else -1, u⟩
  else
    v

/-- Variant::Visit: delegates to the union with the current index_. -/
def Variant.visit (v : Variant n) : Option (Fin n × Nat) :=
  v.value_.visit v.index_

/-- Well-formedness: either the Variant is empty (index_ = -1) with no
live element, or exactly the alternative named by index_ is alive. -/
def VariantWF (v : Variant n) : Prop :=
  (v.index_ = -1 ∧ v.value_.alive = none) ∨
  (∃ i : Fin n, v.index_ = ((i : Nat) : Int) ∧ v.value_.alive = some i)

instance (v : Variant n) : Decidable (VariantWF v) := by
  unfold VariantWF
  infer_instance

/-!
## IfAnyOf

Embedding of the IfAnyOf combinator
(src/include/nop/types/variant.h lines 241-305).  The subset ValidTypes
of the Variant's alternatives is the set of indices with valid i =
true.  CallOp invokes the wrapped operation and reports true exactly on
an element of a valid alternative; on any other argument, including the
EmptyVariant sentinel, it reports false without invoking the operation.
The result pair records (returned value, whether op was invoked).
-/

/-- CallOp applied to the visit outcome: (result, op invoked). -/
def callOp (valid : Fin n → Bool) : Option (Fin n × Nat) → Bool × Bool
  | none => (false, false)
  | some (i, _) => if valid i then (true, true) else (false, false)

/-- IfAnyOf::Call: visits the variant with CallOp. -/
def ifAnyOfCall (valid : Fin n → Bool) (v : Variant n) : Bool × Bool :=
  callOp valid v.visit

/-- IfAnyOf::Get: Call with an operation that stores the element into
value_out; the pair is (result, final value_out). -/
def ifAnyOfGet (valid : Fin n → Bool) (v : Variant n) (value_out : Nat) :
    Bool × Nat :=
  match v.visit with
  | none => (false, value_out)
  | some (i, x) => if valid i then (true, x) else (false, value_out)

/-!
## Helper lemmas
-/

theorem rstep_over_budget (op : ROp) (s : BoundedReader)
    (h : op.requested > s.size_ - s.index_) :
    rstep op s = (some ErrorStatus.NoBuffer, s) := by
  cases op with
  | ensure n =>
    simp only [rstep, BoundedReader.ensure, ROp.requested] at h ⊢
    rw [if_pos h]
  | read =>
    simp only [rstep, BoundedReader.read, ROp.requested] at h ⊢
    rw [if_neg (by omega)]
  | readRaw m =>
    simp only [rstep, BoundedReader.readRaw, ROp.requested] at h ⊢
    rw [if_pos h]
  | skip m =>
    simp only [rstep, BoundedReader.skipBytes, ROp.requested] at h ⊢
    rw [if_pos h]

theorem runOps_append (a b : List ROp) (s : BoundedReader)
    (h : (runOps a s).2 = none) :
    runOps (a ++ b) s = runOps b (runOps a s).1 := by
  induction a generalizing s with
  | nil => simp [runOps]
  | cons op rest ih =>
    simp only [List.cons_append, runOps] at h ⊢
    cases hstep : rstep op s with
    | mk st s1 =>
      cases st with
      | none => simp only [hstep] at h ⊢; exact ih s1 h
      | some e => simp [hstep] at h

theorem rstep_index_le (op : ROp) (s : BoundedReader)
    (h : s.index_ ≤ s.size_) : (rstep op s).2.index_ ≤ (rstep op s).2.size_ := by
  cases op with
  | ensure n =>
    simp only [rstep, BoundedReader.ensure]
    split
    · exact h
    · cases hi : s.reader.ensure n with
      | mk st r => simpa using h
  | read =>
    simp only [rstep, BoundedReader.read]
    split
    · next hlt =>
      cases hi : s.reader.readByte with
      | mk st r => cases st <;> simpa using (by omega)
    · exact h
  | readRaw m =>
    simp only [rstep, BoundedReader.readRaw]
    split
    · exact h
    · next hle =>
      cases hi : s.reader.readRaw m with
      | mk st r => cases st <;> simp <;> omega
  | skip m =>
    simp only [rstep, BoundedReader.skipBytes]
    split
    · exact h
    · next hle =>
      cases hi : s.reader.skip m with
      | mk st r => cases st <;> simp <;> omega

/-- Claim C2: BoundedReader budget discipline.  For any operation
sequence on a BoundedReader with a well-formed cursor, if every
operation of the prefix pre succeeds and the next operation op requests
more bytes than the remaining budget size_ - index_, then the whole run
stops at op with NoBuffer: the final state is exactly the state reached
after pre, so the inner reader is not invoked by op and the effects of
the preceding successful operations on it are preserved. -/
theorem boundedReader_first_over_budget_fails (pre : List ROp) (op : ROp)
    (post : List ROp) (s0 : BoundedReader) (_h0 : s0.index_ ≤ s0.size_)
    (hpre : (runOps pre s0).2 = none)
    (hover : op.requested > (runOps pre s0).1.size_ - (runOps pre s0).1.index_) :
    runOps (pre ++ op :: post) s0 = ((runOps pre s0).1, some ErrorStatus.NoBuffer) := by
  rw [runOps_append pre (op :: post) s0 hpre]
  simp only [runOps, rstep_over_budget op (runOps pre s0).1 hover]

/-- Witness for C2, the spec's scenario S6: capacity 4 over a reader
holding 8 bytes; three one-byte reads succeed, then a two-byte ReadRaw
fails with NoBuffer leaving the inner reader at position 3. -/
theorem boundedReader_first_over_budget_fails_witness :
    (runOps [ROp.read, ROp.read, ROp.read] ⟨⟨0, 8⟩, 4, 0⟩).2 = none ∧
    (ROp.readRaw 2).requested >
      (runOps [ROp.read, ROp.read, ROp.read] ⟨⟨0, 8⟩, 4, 0⟩).1.size_ -
      (runOps [ROp.read, ROp.read, ROp.read] ⟨⟨0, 8⟩, 4, 0⟩).1.index_ ∧
    runOps ([ROp.read, ROp.read, ROp.read] ++ ROp.readRaw 2 :: [])
        ⟨⟨0, 8⟩, 4, 0⟩ =
      ((runOps [ROp.read, ROp.read, ROp.read] ⟨⟨0, 8⟩, 4, 0⟩).1,
        some ErrorStatus.NoBuffer) :=
  ⟨by decide, by decide,
    boundedReader_first_over_budget_fails [ROp.read, ROp.read, ROp.read]
      (ROp.readRaw 2) [] ⟨⟨0, 8⟩, 4, 0⟩ (by decide) (by decide) (by decide)⟩

/-- Counterexample for claim C4: with capacity 4, index 0 and an inner
reader that has no bytes left, ReadPadding fails (propagating the inner
error) and returns with index_ = 0, strictly below the capacity, having
discarded no bytes — so ReadPadding can both return with index_ <
capacity and discard fewer than capacity - index_ bytes. -/
theorem readPadding_claim_counterexample :
    (BoundedReader.readPadding ⟨⟨0, 0⟩, 4, 0⟩).1 = some ErrorStatus.IoError ∧
    (BoundedReader.readPadding ⟨⟨0, 0⟩, 4, 0⟩).2.index_ = 0 ∧
    (BoundedReader.readPadding ⟨⟨0, 0⟩, 4, 0⟩).2.index_ <
      (BoundedReader.readPadding ⟨⟨0, 0⟩, 4, 0⟩).2.size_ ∧
    (BoundedReader.readPadding ⟨⟨0, 0⟩, 4, 0⟩).2.reader.pos = 0 := by
  decide

/-- Claim C4 as amended: for every BoundedReader state with index_ ≤
size_, ReadPadding requests exactly size_ - index_ bytes from the inner
reader (so it never reads past the capacity); when the inner reader can
supply them it discards exactly those bytes and returns with index_ =
size_; when it cannot, the inner error is propagated and the state is
unchanged. -/
theorem readPadding_amended (s : BoundedReader) (h : s.index_ ≤ s.size_) :
    (s.reader.pos + (s.size_ - s.index_) ≤ s.reader.len →
      s.readPadding =
        (none, ⟨⟨s.reader.pos + (s.size_ - s.index_), s.reader.len⟩, s.size_, s.size_⟩)) ∧
    (¬ (s.reader.pos + (s.size_ - s.index_) ≤ s.reader.len) →
      s.readPadding = (some ErrorStatus.IoError, s)) := by
  constructor
  · intro hok
    simp only [BoundedReader.readPadding, InnerReader.skip, if_pos hok]
    have : s.index_ + (s.size_ - s.index_) = s.size_ := by omega
    simp [this]
  · intro hfail
    simp only [BoundedReader.readPadding, InnerReader.skip, if_neg hfail]

/-- Witness for the amended C4: capacity 4, index 1, inner reader at
position 0 of 8 bytes: ReadPadding discards the 3 remaining budget bytes
and returns with index_ = size_ = 4. -/
theorem readPadding_amended_witness :
    (1 : Nat) ≤ 4 ∧
    BoundedReader.readPadding ⟨⟨0, 8⟩, 4, 1⟩ = (none, ⟨⟨3, 8⟩, 4, 4⟩) :=
  ⟨by decide, by
    have h := (readPadding_amended ⟨⟨0, 8⟩, 4, 1⟩ (by decide)).1 (by decide)
    simpa using h⟩

theorem take_set_succ : ∀ (l : List α) (i : Nat) (x : α), i < l.length →
    (l.set i x).take (i + 1) = l.take i ++ [x]
  | [], i, x, h => by simp at h
  | a :: l, 0, x, _ => by simp
  | a :: l, i + 1, x, h => by
    simp only [List.set_cons_succ, List.take_succ_cons]
    rw [take_set_succ l i x (by simpa using h)]
    rfl

theorem drop_set_ge : ∀ (l : List α) (i j : Nat) (x : α), i < j →
    (l.set i x).drop j = l.drop j
  | [], _, _, _, _ => by simp
  | a :: l, 0, j, x, h => by
    obtain ⟨j', rfl⟩ : ∃ j', j = j' + 1 := ⟨j - 1, by omega⟩
    simp
  | a :: l, i + 1, j, x, h => by
    obtain ⟨j', rfl⟩ : ∃ j', j = j' + 1 := ⟨j - 1, by omega⟩
    simp only [List.set_cons_succ, List.drop_succ_cons]
    exact drop_set_ge l i j' x (by omega)

theorem listOverwrite_eq : ∀ (xs l : List α) (i : Nat), i + xs.length ≤ l.length →
    listOverwrite l i xs = l.take i ++ xs ++ l.drop (i + xs.length)
  | [], l, i, h => by simp [listOverwrite]
  | x :: xs, l, i, h => by
    have hi : i < l.length := by simp at h; omega
    rw [listOverwrite, listOverwrite_eq xs (l.set i x) (i + 1)
      (by simp at h ⊢; omega)]
    rw [take_set_succ l i x hi, drop_set_ge l i (i + 1 + xs.length) x (by omega)]
    have harith : i + 1 + xs.length = i + (x :: xs).length := by
      simp only [List.length_cons]; omega
    rw [harith]
    simp [List.append_assoc]

theorem listOverwrite_length : ∀ (xs l : List α) (i : Nat),
    (listOverwrite l i xs).length = l.length
  | [], l, i => rfl
  | x :: xs, l, i => by
    rw [listOverwrite, listOverwrite_length xs (l.set i x) (i + 1)]
    simp

theorem readElemsA_count (E : ElemCodec α) :
    ∀ (c i : Nat) (v : LogicalBuffer α) (input : List Nat),
    (readElemsA E c i v input).2.1.count = v.count
  | 0, _, _, _ => rfl
  | c + 1, i, v, input => by
    rw [readElemsA]
    cases hr : E.read input with
    | error e => rfl
    | ok p =>
      cases p with
      | mk x rest => exact readElemsA_count E c (i + 1) _ rest

theorem readElemsA_ok (E : ElemCodec α) :
    ∀ (xs : List α) (i : Nat) (v : LogicalBuffer α) (rest : List Nat),
    (∀ x ∈ xs, ∀ r, E.read (E.write x ++ r) = .ok (x, r)) →
    readElemsA E xs.length i v (xs.flatMap E.write ++ rest) =
      (none, ⟨listOverwrite v.data i xs, v.count⟩, rest)
  | [], i, v, rest, _ => by simp [readElemsA, listOverwrite]
  | x :: xs, i, v, rest, hlaw => by
    have hx := hlaw x (List.mem_cons_self x xs)
    rw [List.length_cons, List.flatMap_cons, List.append_assoc, readElemsA,
      hx (xs.flatMap E.write ++ rest)]
    exact readElemsA_ok E xs (i + 1) { v with data := v.data.set i x } rest
      (fun y hy r => hlaw y (List.mem_cons_of_mem x hy) r)

theorem readRawElems_ok (k : Nat) :
    ∀ (xs : List Nat) (i : Nat) (v : LogicalBuffer Nat) (rest : List Nat),
    (∀ x ∈ xs, x < 256 ^ k) →
    readRawElems k xs.length i v (xs.flatMap (leBytes k) ++ rest) =
      (none, ⟨listOverwrite v.data i xs, v.count⟩, rest)
  | [], i, v, rest, _ => by simp [readRawElems, listOverwrite]
  | x :: xs, i, v, rest, hbound => by
    have hx := hbound x (List.mem_cons_self x xs)
    rw [List.length_cons, List.flatMap_cons, List.append_assoc, readRawElems,
      readLE_leBytes k x (xs.flatMap (leBytes k) ++ rest) hx]
    exact readRawElems_ok k xs (i + 1) { v with data := v.data.set i x } rest
      (fun y hy => hbound y (List.mem_cons_of_mem x hy))

theorem take_append_self (xs t : List α) : (xs ++ t).take xs.length = xs := by
  rw [List.take_append_of_le_length (Nat.le_refl _), List.take_length]

theorem roundtripA (E : ElemCodec α) (v dest : LogicalBuffer α) (rest : List Nat)
    (hcount : v.count ≤ v.data.length)
    (hcap : dest.data.length = v.data.length)
    (hfit : v.count < 2 ^ 64)
    (hlaw : ∀ x ∈ v.data.take v.count, ∀ r, E.read (E.write x ++ r) = .ok (x, r)) :
    readPayloadA E dest ((writePayloadA E v).2 ++ rest) =
      (none, ⟨listOverwrite dest.data 0 (v.data.take v.count), v.count⟩, rest) := by
  have hxs : (v.data.take v.count).length = v.count := by
    simp [List.length_take]; omega
  rw [writePayloadA, if_neg (by omega)]
  simp only [readPayloadA, List.append_assoc, readU64_writeU64 v.count _ hfit]
  rw [if_neg (by omega)]
  have hloop := readElemsA_ok E (v.data.take v.count) 0 dest rest hlaw
  rw [hxs] at hloop
  rw [hloop]

theorem roundtripB (k : Nat) (hk : 0 < k) (w dest : LogicalBuffer Nat)
    (rest : List Nat)
    (hcount : w.count ≤ w.data.length)
    (hcap : dest.data.length = w.data.length)
    (hfit : w.data.length * k < 2 ^ 64)
    (hbound : ∀ x ∈ w.data.take w.count, x < 256 ^ k) :
    readPayloadB k dest ((writePayloadB k w).2 ++ rest) =
      (none, ⟨listOverwrite dest.data 0 (w.data.take w.count), w.count⟩, rest) := by
  have hxs : (w.data.take w.count).length = w.count := by
    simp [List.length_take]; omega
  have hckfit : w.count * k < 2 ^ 64 :=
    lt_of_le_of_lt (Nat.mul_le_mul_right k hcount) hfit
  rw [writePayloadB, if_neg (by omega)]
  simp only [readPayloadB, List.append_assoc, readU64_writeU64 (w.count * k) _ hckfit]
  have hle : w.count * k ≤ dest.data.length * k := by
    rw [hcap]; exact Nat.mul_le_mul_right k hcount
  rw [if_neg (by
    push_neg
    exact ⟨by omega, Nat.mul_mod_left w.count k⟩)]
  rw [Nat.mul_div_cancel w.count hk]
  have hloop := readRawElems_ok k (w.data.take w.count) 0
    { dest with count := w.count } rest hbound
  rw [hxs] at hloop
  rw [hloop]

theorem listOverwrite_take (l xs : List α) (h : xs.length ≤ l.length) :
    (listOverwrite l 0 xs).take xs.length = xs := by
  rw [listOverwrite_eq xs l 0 (by omega)]
  simp [take_append_self xs (l.drop xs.length)]

/-- Claim C3: LogicalBuffer round-trip.  For every LogicalBuffer value
with count within the array capacity, ReadPayload applied to the byte
stream produced by WritePayload succeeds (with the matching prefix
dispatching to the same codec) and restores the count and the first
count elements, for both the non-integral (ARRAY) codec — for any
element codec satisfying its own round-trip law — and the integral
(BINARY) codec of element width k. -/
theorem logicalBuffer_roundtrip (E : ElemCodec α)
    (v dest : LogicalBuffer α) (rest : List Nat)
    (k : Nat) (w destB : LogicalBuffer Nat) (restB : List Nat)
    (hk : 0 < k)
    (hcountA : v.count ≤ v.data.length)
    (hcapA : dest.data.length = v.data.length)
    (hfitA : v.count < 2 ^ 64)
    (hlaw : ∀ x ∈ v.data.take v.count, ∀ r, E.read (E.write x ++ r) = .ok (x, r))
    (hcountB : w.count ≤ w.data.length)
    (hcapB : destB.data.length = w.data.length)
    (hfitB : w.data.length * k < 2 ^ 64)
    (hbound : ∀ x ∈ w.data.take w.count, x < 256 ^ k) :
    ((readPayloadA E dest ((writePayloadA E v).2 ++ rest)).1 = none ∧
     (readPayloadA E dest ((writePayloadA E v).2 ++ rest)).2.1.count = v.count ∧
     (readPayloadA E dest ((writePayloadA E v).2 ++ rest)).2.1.data.take v.count =
       v.data.take v.count ∧
     (readPayloadA E dest ((writePayloadA E v).2 ++ rest)).2.2 = rest) ∧
    ((readPayloadB k destB ((writePayloadB k w).2 ++ restB)).1 = none ∧
     (readPayloadB k destB ((writePayloadB k w).2 ++ restB)).2.1.count = w.count ∧
     (readPayloadB k destB ((writePayloadB k w).2 ++ restB)).2.1.data.take w.count =
       w.data.take w.count ∧
     (readPayloadB k destB ((writePayloadB k w).2 ++ restB)).2.2 = restB) := by
  have hxsA : (v.data.take v.count).length = v.count := by
    simp [List.length_take]; omega
  have hxsB : (w.data.take w.count).length = w.count := by
    simp [List.length_take]; omega
  rw [roundtripA E v dest rest hcountA hcapA hfitA hlaw,
    roundtripB k hk w destB restB hcountB hcapB hfitB hbound]
  refine ⟨⟨rfl, rfl, ?_, rfl⟩, ⟨rfl, rfl, ?_, rfl⟩⟩
  · have ht := listOverwrite_take dest.data (v.data.take v.count) (by omega)
    rw [hxsA] at ht
    exact ht
  · have ht := listOverwrite_take destB.data (w.data.take w.count) (by omega)
    rw [hxsB] at ht
    exact ht

/-- A concrete element codec for witnesses: one byte per element, the
byte being the element itself. -/
def byteCodec : ElemCodec Nat where
  size := fun _ => 1
  write := fun x => [x]
  read := fun l =>
    match l with
    | [] => .error .IoError
    | b :: r => .ok (b, r)

theorem byteCodec_law (x : Nat) (r : List Nat) :
    byteCodec.read (byteCodec.write x ++ r) = .ok (x, r) := rfl

/-- Witness for C3 at concrete buffers: an ARRAY buffer of three slots
holding two live elements and a BINARY buffer of two 2-byte elements
both round-trip into fresh destinations. -/
theorem logicalBuffer_roundtrip_witness :
    ((readPayloadA byteCodec ⟨[0, 0, 0], 0⟩
        ((writePayloadA byteCodec ⟨[10, 20, 30], 2⟩).2 ++ [99])).1 = none ∧
     (readPayloadA byteCodec ⟨[0, 0, 0], 0⟩
        ((writePayloadA byteCodec ⟨[10, 20, 30], 2⟩).2 ++ [99])).2.1.count = 2 ∧
     (readPayloadA byteCodec ⟨[0, 0, 0], 0⟩
        ((writePayloadA byteCodec ⟨[10, 20, 30], 2⟩).2 ++ [99])).2.1.data.take 2 =
       [10, 20] ∧
     (readPayloadA byteCodec ⟨[0, 0, 0], 0⟩
        ((writePayloadA byteCodec ⟨[10, 20, 30], 2⟩).2 ++ [99])).2.2 = [99]) ∧
    ((readPayloadB 2 ⟨[0, 0], 0⟩
        ((writePayloadB 2 ⟨[5, 300], 2⟩).2 ++ [])).1 = none ∧
     (readPayloadB 2 ⟨[0, 0], 0⟩
        ((writePayloadB 2 ⟨[5, 300], 2⟩).2 ++ [])).2.1.count = 2 ∧
     (readPayloadB 2 ⟨[0, 0], 0⟩
        ((writePayloadB 2 ⟨[5, 300], 2⟩).2 ++ [])).2.1.data.take 2 = [5, 300] ∧
     (readPayloadB 2 ⟨[0, 0], 0⟩
        ((writePayloadB 2 ⟨[5, 300], 2⟩).2 ++ [])).2.2 = []) := by
  have h := logicalBuffer_roundtrip byteCodec ⟨[10, 20, 30], 2⟩ ⟨[0, 0, 0], 0⟩ [99]
    2 ⟨[5, 300], 2⟩ ⟨[0, 0], 0⟩ []
    (by decide) (by decide) (by decide) (by decide)
    (fun x _ r => byteCodec_law x r)
    (by decide) (by decide) (by decide) (by decide)
  simpa using h

theorem flatMap_write_length (E : ElemCodec α) :
    ∀ (xs : List α), (∀ x ∈ xs, (E.write x).length = E.size x) →
    (xs.flatMap E.write).length = (xs.map E.size).sum
  | [], _ => rfl
  | x :: xs, hsz => by
    rw [List.flatMap_cons, List.length_append, List.map_cons, List.sum_cons,
      hsz x (List.mem_cons_self x xs),
      flatMap_write_length E xs (fun y hy => hsz y (List.mem_cons_of_mem x hy))]

theorem flatMap_leBytes_length (k : Nat) :
    ∀ (xs : List Nat), (xs.flatMap (leBytes k)).length = xs.length * k
  | [] => by simp
  | x :: xs => by
    rw [List.flatMap_cons, List.length_append, leBytes_length,
      flatMap_leBytes_length k xs, List.length_cons]
    ring

theorem accumSize32_eq_sum (E : ElemCodec α) :
    ∀ (xs : List α) (acc : Nat), acc + (xs.map E.size).sum < 2 ^ 32 →
    accumSize32 E xs acc = acc + (xs.map E.size).sum
  | [], acc, _ => by simp [accumSize32]
  | x :: xs, acc, h => by
    simp only [List.map_cons, List.sum_cons] at h
    have hlt : acc + E.size x < 2 ^ 32 := by omega
    rw [accumSize32, Nat.mod_eq_of_lt hlt,
      accumSize32_eq_sum E xs (acc + E.size x) (by omega)]
    simp only [List.map_cons, List.sum_cons]
    omega

/-- An element codec whose every element occupies exactly 2 ^ 32 bytes;
its own Size is exact.  A non-integral element of this payload size is
realizable in C++, for example a string of 4 GiB. -/
def hugeCodec : ElemCodec Nat where
  size := fun _ => 2 ^ 32
  write := fun _ => List.replicate (2 ^ 32) 0
  read := fun l =>
    if 2 ^ 32 ≤ l.length then .ok (0, l.drop (2 ^ 32)) else .error .IoError

/-- Counterexample for claim C5: a one-element ARRAY buffer whose element
occupies 2 ^ 32 bytes (element codec itself size-exact, count = capacity
= 1).  Write emits 2 + 2 ^ 32 bytes (prefix, compact count 1, payload),
but Size evaluates to 2 because the source accumulates element sizes in
a 32-bit unsigned accumulator (std::accumulate init 0U), which wraps the
payload total to 0. -/
theorem logicalBuffer_size_claim_counterexample :
    (1 : Nat) ≤ 1 ∧
    (hugeCodec.write 0).length = hugeCodec.size 0 ∧
    (writeA hugeCodec ⟨[0], 1⟩).1 = none ∧
    (writeA hugeCodec ⟨[0], 1⟩).2.length = 2 + 2 ^ 32 ∧
    sizeA hugeCodec ⟨[0], 1⟩ = 2 ∧
    (writeA hugeCodec ⟨[0], 1⟩).2.length ≠ sizeA hugeCodec ⟨[0], 1⟩ := by
  have h1 : (writeA hugeCodec ⟨[0], 1⟩).2 =
      tagArray :: (writeU64 1 ++ (List.replicate (2 ^ 32) 0 ++ [])) := rfl
  have hu : writeU64 1 = [1] := rfl
  have h2 : (writeA hugeCodec ⟨[0], 1⟩).2.length = 2 + 2 ^ 32 := by
    rw [h1, hu, List.length_cons, List.length_append, List.length_append,
      List.length_replicate]
    rfl
  have hs : sizeA hugeCodec ⟨[0], 1⟩ = 2 := rfl
  have hwlen : (hugeCodec.write 0).length = hugeCodec.size 0 := by
    rw [show hugeCodec.write 0 = List.replicate (2 ^ 32) 0 from rfl,
      List.length_replicate]
    rfl
  refine ⟨Nat.le_refl 1, hwlen, rfl, h2, hs, ?_⟩
  rw [h2, hs]
  omega

/-- Claim C5 as amended: Size equals the number of bytes Write emits (the
prefix byte, the compact length, and the payload) for the integral
(BINARY) codec for every count within the array capacity, and for the
non-integral (ARRAY) codec — under an element codec whose own Size is
exact — whenever additionally the total of the element sizes over the
first count elements stays below 2 ^ 32, so that the source's 32-bit
accumulate accumulator does not wrap. -/
theorem logicalBuffer_size_exact_amended (E : ElemCodec α) (v : LogicalBuffer α)
    (k : Nat) (w : LogicalBuffer Nat)
    (hcountA : v.count ≤ v.data.length)
    (hsz : ∀ x ∈ v.data.take v.count, (E.write x).length = E.size x)
    (hsum : ((v.data.take v.count).map E.size).sum < 2 ^ 32)
    (hcountB : w.count ≤ w.data.length) :
    ((writeA E v).1 = none ∧ (writeA E v).2.length = sizeA E v) ∧
    ((writeB k w).1 = none ∧ (writeB k w).2.length = sizeB k w) := by
  have hxsB : (w.data.take w.count).length = w.count := by
    simp [List.length_take]; omega
  constructor
  · rw [writeA, writePayloadA, if_neg (by omega)]
    refine ⟨rfl, ?_⟩
    simp only [sizeA, List.length_cons, List.length_append, writeU64_length,
      flatMap_write_length E (v.data.take v.count) hsz,
      accumSize32_eq_sum E (v.data.take v.count) 0 (by omega)]
    omega
  · rw [writeB, writePayloadB, if_neg (by omega)]
    refine ⟨rfl, ?_⟩
    simp only [sizeB, List.length_cons, List.length_append, writeU64_length,
      flatMap_leBytes_length k (w.data.take w.count), hxsB]
    omega

/-- Witness for the amended C5: the ARRAY buffer ⟨[10, 20, 30], 2⟩ under
the one-byte element codec writes 1 + 1 + 2 = 4 bytes (payload total 2,
far below 2 ^ 32), and the BINARY buffer ⟨[5, 300], 2⟩ of width 2 writes
1 + 1 + 4 = 6 bytes, matching Size. -/
theorem logicalBuffer_size_exact_amended_witness :
    ((writeA byteCodec ⟨[10, 20, 30], 2⟩).1 = none ∧
     (writeA byteCodec ⟨[10, 20, 30], 2⟩).2.length = sizeA byteCodec ⟨[10, 20, 30], 2⟩) ∧
    ((writeB 2 ⟨[5, 300], 2⟩).1 = none ∧
     (writeB 2 ⟨[5, 300], 2⟩).2.length = sizeB 2 ⟨[5, 300], 2⟩) :=
  logicalBuffer_size_exact_amended byteCodec ⟨[10, 20, 30], 2⟩ 2 ⟨[5, 300], 2⟩
    (by decide) (fun x _ => rfl) (by decide) (by decide)

/-- Claim C6: read-side length validation.  Whenever ReadPayload decodes
a length whose implied element count exceeds the array capacity — or,
for the integral variant, a byte length that is not a multiple of the
element width — it fails with InvalidContainerLength. -/
theorem logicalBuffer_read_length_validation (E : ElemCodec α)
    (dest : LogicalBuffer α) (input : List Nat) (n : Nat) (rest : List Nat)
    (k : Nat) (destB : LogicalBuffer Nat) (inputB : List Nat)
    (size_bytes : Nat) (restB : List Nat) :
    (readU64 input = .ok (n, rest) → n > dest.data.length →
      readPayloadA E dest input = (some .InvalidContainerLength, dest, rest)) ∧
    (readU64 inputB = .ok (size_bytes, restB) →
      (size_bytes > destB.data.length * k ∨ size_bytes % k ≠ 0) →
      readPayloadB k destB inputB = (some .InvalidContainerLength, destB, restB)) := by
  constructor
  · intro hread hover
    rw [readPayloadA, hread]
    simp only [if_pos hover]
  · intro hread hover
    rw [readPayloadB, hread]
    simp only [if_pos hover]

/-- Witness for C6: a declared ARRAY count of 4 over a capacity-3
destination, and a BINARY byte length of 3 over width-2 elements, are
both rejected with InvalidContainerLength. -/
theorem logicalBuffer_read_length_validation_witness :
    (readPayloadA byteCodec ⟨[0, 0, 0], 0⟩ [4] =
      (some .InvalidContainerLength, ⟨[0, 0, 0], 0⟩, [])) ∧
    (readPayloadB 2 ⟨[0, 0], 0⟩ [3] =
      (some .InvalidContainerLength, ⟨[0, 0], 0⟩, [])) :=
  ⟨(logicalBuffer_read_length_validation byteCodec ⟨[0, 0, 0], 0⟩ [4] 4 []
      2 ⟨[0, 0], 0⟩ [3] 3 []).1 rfl (by decide),
   (logicalBuffer_read_length_validation byteCodec ⟨[0, 0, 0], 0⟩ [4] 4 []
      2 ⟨[0, 0], 0⟩ [3] 3 []).2 rfl (by decide)⟩

/-- Claim C8: for both LogicalBuffer codec variants, WritePayload checks
count > capacity before emitting anything, so on that failure the
status is InvalidContainerLength and no byte has been written. -/
theorem writePayload_nothing_emitted_on_overflow (E : ElemCodec α)
    (v : LogicalBuffer α) (k : Nat) (w : LogicalBuffer Nat)
    (hA : v.count > v.data.length) (hB : w.count > w.data.length) :
    writePayloadA E v = (some .InvalidContainerLength, []) ∧
    writePayloadB k w = (some .InvalidContainerLength, []) := by
  rw [writePayloadA, if_pos hA, writePayloadB, if_pos hB]
  exact ⟨rfl, rfl⟩

/-- Witness for C8: a buffer claiming 3 live elements over capacity 2 is
rejected by both variants with nothing emitted. -/
theorem writePayload_nothing_emitted_on_overflow_witness :
    (3 : Nat) > 2 ∧
    writePayloadA byteCodec ⟨[1, 2], 3⟩ = (some .InvalidContainerLength, []) ∧
    writePayloadB 4 ⟨[1, 2], 3⟩ = (some .InvalidContainerLength, []) :=
  ⟨by decide,
   (writePayload_nothing_emitted_on_overflow byteCodec ⟨[1, 2], 3⟩ 4 ⟨[1, 2], 3⟩
     (by decide) (by decide)).1,
   (writePayload_nothing_emitted_on_overflow byteCodec ⟨[1, 2], 3⟩ 4 ⟨[1, 2], 3⟩
     (by decide) (by decide)).2⟩

/-- Claim C9: for the non-integral (ARRAY) codec, whenever ReadPayload
returns an error the destination count is unchanged: the count is
assigned only after the length and every element were read, although
element slots may already have been overwritten. -/
theorem readPayloadA_error_preserves_count (E : ElemCodec α)
    (dest : LogicalBuffer α) (input : List Nat)
    (h : (readPayloadA E dest input).1 ≠ none) :
    (readPayloadA E dest input).2.1.count = dest.count := by
  cases hread : readU64 input with
  | error e => simp [readPayloadA, hread]
  | ok p =>
    cases p with
    | mk size rest =>
      simp only [readPayloadA, hread] at h ⊢
      by_cases hover : size > dest.data.length
      · simp [if_pos hover]
      · rw [if_neg hover] at h ⊢
        cases hloop : readElemsA E size 0 dest rest with
        | mk st p1 =>
          cases p1 with
          | mk v1 rest1 =>
            cases st with
            | none => simp [hloop] at h
            | some e =>
              simp only [hloop]
              have hc := readElemsA_count E size 0 dest rest
              rw [hloop] at hc
              exact hc

/-- Witness for C9: reading from a stream whose element bytes are
truncated (count 2 declared, one element byte present) errors while the
destination count stays 0. -/
theorem readPayloadA_error_preserves_count_witness :
    (readPayloadA byteCodec ⟨[0, 0, 0], 0⟩ [2, 7]).1 ≠ none ∧
    (readPayloadA byteCodec ⟨[0, 0, 0], 0⟩ [2, 7]).2.1.count = 0 :=
  ⟨by decide,
   readPayloadA_error_preserves_count byteCodec ⟨[0, 0, 0], 0⟩ [2, 7] (by decide)⟩

theorem destruct_alive_none (v : Variant n) (hwf : VariantWF v) :
    (v.Destruct).value_.alive = none := by
  rcases hwf with ⟨hidx, hal⟩ | ⟨i, hidx, hal⟩
  · simp [Variant.Destruct, UnionState.destruct, hal]
  · simp [Variant.Destruct, UnionState.destruct, hal, hidx]

/-- Claim C1 exhibit: the well-formedness invariant is broken by the
code.  Assigning a value to a default Variant over two alternatives
makes alternative 0 alive with index() = 0; the subsequent assignment
from EmptyVariant destroys the element but, because Variant::Destruct
does not reset index_, leaves index() = 0 with no alive alternative:
the state is not well-formed and empty() still reports false. -/
theorem variant_empty_assign_breaks_wf :
    ((Variant.default 2).assignTag 0 5).index_ = 0 ∧
    ((Variant.default 2).assignTag 0 5).value_.alive = some 0 ∧
    (((Variant.default 2).assignTag 0 5).assignEmpty).index_ = 0 ∧
    (((Variant.default 2).assignTag 0 5).assignEmpty).value_.alive = none ∧
    ¬ VariantWF (((Variant.default 2).assignTag 0 5).assignEmpty) ∧
    (((Variant.default 2).assignTag 0 5).assignEmpty).empty = false := by
  decide

/-- Claim C7: Variant::Become.  On a well-formed Variant, Become is a
no-op when the target equals the current index; otherwise it destroys
the active element and constructs the target alternative, leaving
index() = target with that alternative alive when the target index is
valid and construction succeeds, and an empty Variant (index() = -1, no
alive alternative) otherwise. -/
theorem variant_become_spec {n : Nat} (v : Variant n) (target : Int) (x : Nat)
    (ctorOk : Bool) (hwf : VariantWF v) :
    (target = v.index_ → v.become target x ctorOk = v) ∧
    (target ≠ v.index_ →
      ((0 ≤ target ∧ target < (n : Int) ∧ ctorOk = true) →
        (v.become target x ctorOk).index_ = target ∧
        ∃ i : Fin n, (v.become target x ctorOk).value_.alive = some i ∧
          ((i : Nat) : Int) = target) ∧
      (¬ (0 ≤ target ∧ target < (n : Int) ∧ ctorOk = true) →
        (v.become target x ctorOk).index_ = -1 ∧
        (v.become target x ctorOk).value_.alive = none)) := by
  refine ⟨?_, ?_⟩
  · intro heq
    rw [Variant.become, if_neg (show ¬ target ≠ v.index_ by simp [heq])]
  · intro hne
    have hu : (v.Destruct).value_.alive = none := destruct_alive_none v hwf
    refine ⟨?_, ?_⟩
    · rintro ⟨h0, hlt, hctor⟩
      subst hctor
      simp only [Variant.become, if_pos hne, UnionState.become,
        dif_pos (And.intro h0 hlt), if_true]
      exact ⟨by simp, ⟨target.toNat, by omega⟩, rfl, Int.toNat_of_nonneg h0⟩
    · intro hnot
      by_cases hvalid : 0 ≤ target ∧ target < (n : Int)
      · have hctor : ctorOk = false := by
          cases hc : ctorOk
          · rfl
          · exact absurd ⟨hvalid.1, hvalid.2, hc⟩ hnot
        subst hctor
        simp only [Variant.become, if_pos hne, UnionState.become,
          dif_pos hvalid, if_false]
        exact ⟨rfl, hu⟩
      · simp only [Variant.become, if_pos hne, UnionState.become,
          dif_neg hvalid]
        exact ⟨rfl, hu⟩

/-- Witness for C7: a Variant over two alternatives holding alternative 0
becomes alternative 1: index() = 1 and alternative 1 is alive. -/
theorem variant_become_spec_witness :
    VariantWF ((Variant.default 2).assignTag 0 7) ∧
    (((Variant.default 2).assignTag 0 7).become 1 3 true).index_ = 1 ∧
    (∃ i : Fin 2,
      (((Variant.default 2).assignTag 0 7).become 1 3 true).value_.alive = some i ∧
      ((i : Nat) : Int) = 1) := by
  have h := ((variant_become_spec ((Variant.default 2).assignTag 0 7) 1 3 true
    (by decide)).2 (by decide)).1 ⟨by decide, by decide, rfl⟩
  exact ⟨by decide, h.1, h.2⟩

/-- Claim C10: IfAnyOf on an empty Variant.  Call applied to an empty
Variant returns false without invoking the supplied operation, and Get
(Call with a store operation) likewise returns false leaving the
output value untouched. -/
theorem ifAnyOf_empty_returns_false {n : Nat} (valid : Fin n → Bool)
    (v : Variant n) (value_out : Nat) (h : v.empty = true) :
    ifAnyOfCall valid v = (false, false) ∧
    ifAnyOfGet valid v value_out = (false, value_out) := by
  have hidx : v.index_ = -1 := by
    simpa [Variant.empty] using h
  have hv : v.visit = none := by
    rw [Variant.visit, hidx, UnionState.visit, dif_neg (by omega)]
  rw [ifAnyOfCall, ifAnyOfGet, hv]
  exact ⟨rfl, rfl⟩

/-- Witness for C10: the empty Variant over one alternative, with every
alternative accepted, yields false from Call and leaves Get's output
at its initial 42. -/
theorem ifAnyOf_empty_returns_false_witness :
    (Variant.default 1).empty = true ∧
    ifAnyOfCall (fun _ => true) (Variant.default 1) = (false, false) ∧
    ifAnyOfGet (fun _ => true) (Variant.default 1) 42 = (false, 42) :=
  ⟨by decide,
   (ifAnyOf_empty_returns_false (fun _ => true) (Variant.default 1) 42 (by decide)).1,
   (ifAnyOf_empty_returns_false (fun _ => true) (Variant.default 1) 42 (by decide)).2⟩
